import Mathlib

/-!
Verification development for the SLAM backend (stereo visual odometry):
feature-track database (`Ex4/ex4.py`), pose composition and extrinsic-matrix
utilities (`Ex5/ex5.py`), and relative-covariance extraction (`Ex6/ex6.py`).

Frame ids and all Python integers are modelled as `Int` (Python ints are
unbounded and signed; in particular `frame_id - 1` may be negative).
Keypoints are opaque feature tokens compared by equality, following the
source comment in `extend_tracks` ("treats the kps as unique objects").
-/

/-- A keypoint: an opaque feature token, compared by equality. -/
abbrev KP := Nat

/-- A pair `(left, right)` of keypoint arrays for one frame, as passed around
as `(left_kp, right_kp)` tuples in `ex4.py`. -/
structure KPPair where
  left : List KP
  right : List KP
  deriving DecidableEq

/-- Python runtime errors that the modelled code can raise. -/
inductive PyErr where
  | keyError
  | attributeError
  deriving DecidableEq

/-- The `(xl, xr, y)` feature-location triplet documented by
`TracksDB.get_feature_locations`. -/
abbrev Obs := Int × Int × Int

/-- Python dict read `m[k]`: the value at the first (unique) matching key. -/
def dictGet? [DecidableEq κ] (m : List (κ × α)) (k : κ) : Option α :=
  (m.find? (fun p => decide (p.1 = k))).map (·.2)

/-- Python dict write `m[k] = v`: replace the entry for `k`, or append a new
entry at the end (Python dicts keep insertion order and unique keys). -/
def dictSet [DecidableEq κ] : List (κ × α) → κ → α → List (κ × α)
  | [], k, v => [(k, v)]
  | p :: rest, k, v => if p.1 = k then (k, v) :: rest else p :: dictSet rest k v

theorem dictGet?_nil [DecidableEq κ] (k : κ) : dictGet? ([] : List (κ × α)) k = none := rfl

theorem dictGet?_set_self [DecidableEq κ] (m : List (κ × α)) (k : κ) (v : α) :
    dictGet? (dictSet m k v) k = some v := by
  induction m with
  | nil => simp [dictSet, dictGet?, List.find?]
  | cons p rest ih =>
    by_cases h : p.1 = k
    · simp [dictSet, h, dictGet?, List.find?]
    · simp only [dictSet, if_neg h, dictGet?, List.find?]
      rw [decide_eq_false h]
      exact ih

theorem dictGet?_set_ne [DecidableEq κ] (m : List (κ × α)) (k k' : κ) (v : α)
    (h : k' ≠ k) : dictGet? (dictSet m k v) k' = dictGet? m k' := by
  induction m with
  | nil => simp [dictSet, dictGet?, List.find?, decide_eq_false (Ne.symm h)]
  | cons p rest ih =>
    by_cases hp : p.1 = k
    · subst hp
      simp [dictSet, dictGet?, List.find?, decide_eq_false h,
        decide_eq_false (fun hh : p.1 = k' => h hh.symm)]
    · simp only [dictSet, if_neg hp, dictGet?, List.find?]
      cases hk' : decide (p.1 = k') with
      | true => rfl
      | false => exact ih

/-- `Track` (`ex4.py`): unique id, list of frame ids, and `kp`, a dict from
frame id to the `(left, right)` keypoint pair stored for that frame. -/
structure Track where
  track_id : Nat
  frame_ids : List Int
  kp : List (Int × KPPair)
  deriving DecidableEq

/-- `kp.pt` as evaluated in `get_feature_locations`: the value stored in
`Track.kp` is always a tuple of two keypoint arrays (written either as
`{frame_id: new_matches}` at creation or by `add_frame`), and a Python tuple
has no attribute `pt`, so the access raises `AttributeError`. -/
def KPPair.pt (_ : KPPair) : Except PyErr Obs := .error .attributeError

/-- `Track.add_frame` (`ex4.py` lines 64-75): keep the keypoints of the
track's last frame that reappear in `curr_kp`, find their indices in
`curr_kp` (`np.where(curr_kp[0] == kp)[0][0]`: first matching index), store
the correspondingly indexed `next_kp` entries under the new frame id, and
append the frame id to `frame_ids`. `self.kp[self.frame_ids[-1]]` is modelled
with defaults that are never consulted on stores built by this class: every
track holds at least one frame, and `kp`'s keys cover `frame_ids`. -/
def Track.add_frame (track : Track) (frame_id : Int) (curr_kp next_kp : KPPair) : Track :=
  let lastKp := (dictGet? track.kp (track.frame_ids.getLastD 0)).getD ⟨[], []⟩
  let kp_to_keep := lastKp.left.filter (fun kp => decide (kp ∈ curr_kp.left))
  let idx_to_keep := kp_to_keep.map (fun kp => curr_kp.left.indexOf kp)
  let newPair : KPPair :=
    ⟨idx_to_keep.filterMap (fun i => next_kp.left.get? i),
     idx_to_keep.filterMap (fun i => next_kp.right.get? i)⟩
  { track with kp := dictSet track.kp frame_id newPair,
               frame_ids := track.frame_ids ++ [frame_id] }

/-- `TracksDB` (`ex4.py`): dict of tracks keyed by track id, the concatenated
frame-id list, the list of track ids, and the id counter `track_id`. -/
structure TracksDB where
  tracks : List (Nat × Track)
  frame_ids : List Int
  track_ids : List Nat
  track_id : Nat
  deriving DecidableEq

/-- `TracksDB.__init__`: the empty store. -/
def TracksDB.init : TracksDB := ⟨[], [], [], 0⟩

/-- `self.tracks[track_id]`. Python raises `KeyError` on a missing key; in
this store every id in `track_ids` is a key of `tracks`, so the default is
never consulted where this accessor is used. -/
def TracksDB.getTrack (db : TracksDB) (tid : Nat) : Track :=
  (dictGet? db.tracks tid).getD ⟨0, [], []⟩

/-- `TracksDB.get_track_ids` (`ex4.py` lines 110-116): all track ids whose
track's frame-id list contains `frame_id`. -/
def TracksDB.get_track_ids (db : TracksDB) (frame_id : Int) : List Nat :=
  db.track_ids.filter (fun tid => decide (frame_id ∈ (db.getTrack tid).frame_ids))

/-- `TracksDB.get_feature_locations` (`ex4.py` lines 126-143): look up the
track (`KeyError` when absent), return `None` when `frame_id` is not in the
track's frame list, otherwise take `frame_index`, the positional index of
`frame_id` in `frame_ids`, read `track.kp[frame_index]` — a dict keyed by
frame id, so this is `KeyError` unless the positional index happens to be a
frame id of the track — and return `kp.pt`. -/
def TracksDB.get_feature_locations (db : TracksDB) (frame_id : Int) (track_id : Nat) :
    Except PyErr (Option Obs) :=
  match dictGet? db.tracks track_id with
  | none => .error .keyError
  | some track =>
    if frame_id ∈ track.frame_ids then
      let frame_index : Nat := track.frame_ids.indexOf frame_id
      match dictGet? track.kp (frame_index : Int) with
      | none => .error .keyError
      | some kpv => (kpv.pt).map some
    else .ok none

/-- `TracksDB.add_new_track` (`ex4.py` lines 177-184). -/
def TracksDB.add_new_track (db : TracksDB) (track : Track) : TracksDB :=
  { db with tracks := dictSet db.tracks track.track_id track,
            frame_ids := db.frame_ids ++ track.frame_ids,
            track_ids := db.track_ids ++ [track.track_id] }

/-- `TracksDB.get_new_id` (`ex4.py` lines 186-192): post-increment of the id
counter, returned together with the updated store. -/
def TracksDB.get_new_id (db : TracksDB) : Nat × TracksDB :=
  (db.track_id, { db with track_id := db.track_id + 1 })

/-- The two `relevant_tracks` list comprehensions of `extend_tracks`
(`ex4.py` lines 154-158): track ids whose frame list contains `frame_id - 1`
and whose stored keypoints at `frame_id - 1` meet `curr` in both the left and
the right image. `track.kp[frame_id - 1]` is modelled with a default never
consulted on stores built by this class (`kp`'s keys cover `frame_ids`). -/
def TracksDB.relevantTracks (db : TracksDB) (frame_id : Int) (curr : KPPair) : List Nat :=
  let r1 := db.track_ids.filter (fun tid => decide ((frame_id - 1) ∈ (db.getTrack tid).frame_ids))
  r1.filter (fun tid =>
    let prevKp := (dictGet? (db.getTrack tid).kp (frame_id - 1)).getD ⟨[], []⟩
    (curr.left.any fun kp => decide (kp ∈ prevKp.left)) &&
    (curr.right.any fun kp => decide (kp ∈ prevKp.right)))

/-- One iteration of the `for track_id in relevant_tracks` loop of
`extend_tracks`: `self.tracks[track_id].add_frame(frame_id, curr, next)`. -/
def TracksDB.updTrack (f : Int) (c n : KPPair) (d : TracksDB) (tid : Nat) : TracksDB :=
  { d with tracks := dictSet d.tracks tid ((d.getTrack tid).add_frame f c n) }

/-- The whole `for track_id in relevant_tracks` loop of `extend_tracks`. -/
def TracksDB.extendLoop (db : TracksDB) (f : Int) (c n : KPPair) (ts : List Nat) : TracksDB :=
  ts.foldl (TracksDB.updTrack f c n) db

/-- `TracksDB.extend_tracks` (`ex4.py` lines 147-174): compute the relevant
tracks, extend each of them with `add_frame`, then create one new track under
a fresh id holding the frame `frame_id` with `new_matches`. The source binds
`new_matches = (left_kp, right_kp) = next_frame_supporters_kp` — the entire
next-frame inlier pair, unfiltered; it also computes a `relevant_kp` dict
just before that line and never uses it. -/
def TracksDB.extend_tracks (db : TracksDB) (frame_id : Int) (curr next : KPPair) : TracksDB :=
  let relevant := db.relevantTracks frame_id curr
  let db1 := db.extendLoop frame_id curr next relevant
  let new_matches := next
  let nid := (db1.get_new_id).1
  let db2 := (db1.get_new_id).2
  db2.add_new_track ⟨nid, [frame_id], [(frame_id, new_matches)]⟩

/-- A run of `extend_tracks` calls, as in `run_sequence` (`ex4.py` lines
413-427): each call supplies `(frame_id, curr_inliers, next_inliers)`. -/
def TracksDB.ingest (db : TracksDB) (calls : List (Int × KPPair × KPPair)) : TracksDB :=
  calls.foldl (fun d c => d.extend_tracks c.1 c.2.1 c.2.2) db

theorem getTrack_updTrack_self (f : Int) (c n : KPPair) (d : TracksDB) (tid : Nat) :
    (TracksDB.updTrack f c n d tid).getTrack tid = (d.getTrack tid).add_frame f c n := by
  simp [TracksDB.updTrack, TracksDB.getTrack, dictGet?_set_self]

theorem getTrack_updTrack_ne (f : Int) (c n : KPPair) (d : TracksDB) (tid tid' : Nat)
    (h : tid' ≠ tid) :
    (TracksDB.updTrack f c n d tid).getTrack tid' = d.getTrack tid' := by
  simp [TracksDB.updTrack, TracksDB.getTrack, dictGet?_set_ne _ _ _ _ h]

theorem updTrack_track_ids (f : Int) (c n : KPPair) (d : TracksDB) (tid : Nat) :
    (TracksDB.updTrack f c n d tid).track_ids = d.track_ids := rfl

theorem updTrack_track_id (f : Int) (c n : KPPair) (d : TracksDB) (tid : Nat) :
    (TracksDB.updTrack f c n d tid).track_id = d.track_id := rfl

theorem extendLoop_track_ids (f : Int) (c n : KPPair) (ts : List Nat) :
    ∀ db : TracksDB, (db.extendLoop f c n ts).track_ids = db.track_ids := by
  induction ts with
  | nil => intro db; rfl
  | cons t ts ih => intro db; exact ih (TracksDB.updTrack f c n db t)

theorem extendLoop_track_id (f : Int) (c n : KPPair) (ts : List Nat) :
    ∀ db : TracksDB, (db.extendLoop f c n ts).track_id = db.track_id := by
  induction ts with
  | nil => intro db; rfl
  | cons t ts ih => intro db; exact ih (TracksDB.updTrack f c n db t)

theorem extendLoop_getTrack (f : Int) (c n : KPPair) (ts : List Nat) (hnd : ts.Nodup) :
    ∀ (db : TracksDB) (tid : Nat),
      (db.extendLoop f c n ts).getTrack tid =
        if tid ∈ ts then (db.getTrack tid).add_frame f c n else db.getTrack tid := by
  induction ts with
  | nil => intro db tid; simp [TracksDB.extendLoop]
  | cons t ts ih =>
    intro db tid
    obtain ⟨hnotin, hnd'⟩ := List.nodup_cons.mp hnd
    have hstep : db.extendLoop f c n (t :: ts) =
        (TracksDB.updTrack f c n db t).extendLoop f c n ts := rfl
    rw [hstep, ih hnd']
    by_cases htid : tid = t
    · subst htid
      simp [hnotin, getTrack_updTrack_self]
    · rw [getTrack_updTrack_ne _ _ _ _ _ _ htid]
      simp [List.mem_cons, htid]

theorem extend_track_id (db : TracksDB) (f : Int) (c n : KPPair) :
    (db.extend_tracks f c n).track_id = db.track_id + 1 := by
  simp [TracksDB.extend_tracks, TracksDB.get_new_id, TracksDB.add_new_track,
    extendLoop_track_id]

theorem extend_track_ids (db : TracksDB) (f : Int) (c n : KPPair) :
    (db.extend_tracks f c n).track_ids = db.track_ids ++ [db.track_id] := by
  simp [TracksDB.extend_tracks, TracksDB.get_new_id, TracksDB.add_new_track,
    extendLoop_track_ids, extendLoop_track_id]

theorem extend_getTrack_new (db : TracksDB) (f : Int) (c n : KPPair) :
    (db.extend_tracks f c n).getTrack db.track_id = ⟨db.track_id, [f], [(f, n)]⟩ := by
  simp [TracksDB.extend_tracks, TracksDB.get_new_id, TracksDB.add_new_track,
    TracksDB.getTrack, extendLoop_track_id, dictGet?_set_self]

theorem extend_getTrack (db : TracksDB) (f : Int) (c n : KPPair)
    (hnd : db.track_ids.Nodup) (tid : Nat) :
    (db.extend_tracks f c n).getTrack tid =
      if tid = db.track_id then ⟨db.track_id, [f], [(f, n)]⟩
      else if tid ∈ db.relevantTracks f c then (db.getTrack tid).add_frame f c n
      else db.getTrack tid := by
  have hrel : (db.relevantTracks f c).Nodup := (hnd.filter _).filter _
  by_cases htid : tid = db.track_id
  · subst htid; simp [extend_getTrack_new]
  · rw [if_neg htid]
    have hfinal : (db.extend_tracks f c n).getTrack tid =
        (db.extendLoop f c n (db.relevantTracks f c)).getTrack tid := by
      simp only [TracksDB.extend_tracks, TracksDB.get_new_id, TracksDB.add_new_track,
        TracksDB.getTrack]
      rw [show ((db.extendLoop f c n (db.relevantTracks f c)).track_id) = db.track_id from
        extendLoop_track_id f c n _ db]
      rw [dictGet?_set_ne _ _ _ _ htid]
    rw [hfinal, extendLoop_getTrack f c n _ hrel]

theorem add_frame_frame_ids (t : Track) (f : Int) (c n : KPPair) :
    (t.add_frame f c n).frame_ids = t.frame_ids ++ [f] := rfl

theorem add_frame_kp_get_ne (t : Track) (f g : Int) (c n : KPPair) (h : g ≠ f) :
    dictGet? (t.add_frame f c n).kp g = dictGet? t.kp g := by
  simp only [Track.add_frame]
  exact dictGet?_set_ne _ _ _ _ h

theorem ingest_nil (db : TracksDB) : db.ingest [] = db := rfl

theorem ingest_cons (db : TracksDB) (c : Int × KPPair × KPPair)
    (rest : List (Int × KPPair × KPPair)) :
    db.ingest (c :: rest) = (db.extend_tracks c.1 c.2.1 c.2.2).ingest rest := rfl

theorem ingest_track_ids (calls : List (Int × KPPair × KPPair)) :
    ∀ db : TracksDB,
      (db.ingest calls).track_ids = db.track_ids ++ List.range' db.track_id calls.length := by
  induction calls with
  | nil => intro db; simp [ingest_nil, List.range']
  | cons c rest ih =>
    intro db
    rw [ingest_cons, ih, extend_track_ids, extend_track_id]
    rw [List.append_assoc]
    rfl

/-- C9: every single call to `TracksDB.extend_tracks` creates exactly one new
`Track` — regardless of how many correspondences were absorbed by existing
tracks, and even when the inlier sets are empty — whose id is the counter
value before the call, whose only frame is `frameId`, and whose observation
set is the entire `nextFrameInliers` pair; the id counter increases by
exactly one per call, and across a run of `extend_tracks` calls starting
from the empty store the track ids are unique and consecutive `0..n-1`. -/
theorem extend_tracks_always_one_new_track :
    (∀ (db : TracksDB) (f : Int) (c n : KPPair),
        (db.extend_tracks f c n).track_id = db.track_id + 1
        ∧ (db.extend_tracks f c n).track_ids = db.track_ids ++ [db.track_id]
        ∧ (db.extend_tracks f c n).getTrack db.track_id = ⟨db.track_id, [f], [(f, n)]⟩)
    ∧ ∀ calls : List (Int × KPPair × KPPair),
        (TracksDB.init.ingest calls).track_ids = List.range calls.length := by
  constructor
  · intro db f c n
    exact ⟨extend_track_id db f c n, extend_track_ids db f c n, extend_getTrack_new db f c n⟩
  · intro calls
    rw [ingest_track_ids calls TracksDB.init]
    simp [TracksDB.init, List.range_eq_range']

/-- Store with `trackA` (id 0) spanning frames `[0,1,2]` and `trackB` (id 1)
spanning `[1,2]` only — the scenario of §8 of the spec. -/
def trackA : Track := ⟨0, [0, 1, 2], [(0, ⟨[1], [1]⟩), (1, ⟨[2], [2]⟩), (2, ⟨[3], [3]⟩)]⟩

def trackB : Track := ⟨1, [1, 2], [(1, ⟨[4], [4]⟩), (2, ⟨[5], [5]⟩)]⟩

def dbAB : TracksDB := (TracksDB.init.add_new_track trackA).add_new_track trackB

/-- C6: for every store and frame id, `TracksDB.get_track_ids frameId`
returns exactly the ids of stored tracks whose frame-id list contains
`frameId`; on the store with trackA spanning `[0,1,2]` and trackB spanning
`[1,2]` it returns `{A}` at frame 0 and `{A,B}` at frames 1 and 2. -/
theorem get_track_ids_correct :
    (∀ (db : TracksDB) (f : Int) (tid : Nat),
        tid ∈ db.get_track_ids f ↔ tid ∈ db.track_ids ∧ f ∈ (db.getTrack tid).frame_ids)
    ∧ dbAB.get_track_ids 0 = [0]
    ∧ dbAB.get_track_ids 1 = [0, 1]
    ∧ dbAB.get_track_ids 2 = [0, 1] := by
  refine ⟨?_, by decide, by decide, by decide⟩
  intro db f tid
  simp [TracksDB.get_track_ids, List.mem_filter]

/-- A store holding one track (id 0) created at frame 0, as produced by one
`extend_tracks` call on the empty store. -/
def dbC1 : TracksDB := TracksDB.init.extend_tracks 0 ⟨[], []⟩ ⟨[1], [2]⟩

/-- C1: the claim says `get_feature_locations` returns the stored `(xl,xr,y)`
triplet whenever `frameId ∈ track.frameIds` and is defined exactly then. The
code instead can never produce a triplet: the stored `kp` value is a tuple of
two keypoint arrays, so `kp.pt` raises `AttributeError` (and `track.kp` is
keyed by frame id while the code indexes it with the positional
`frame_index`, a `KeyError` for tracks not starting at consecutive ids from
0). First conjunct: no store, frame and track id ever yields a triplet.
Second conjunct: on a store holding a track with `frame_ids = [0]`, the query
at frame 0 — which IS in the track — raises `AttributeError`. -/
theorem get_feature_locations_never_triplet :
    (∀ (db : TracksDB) (f : Int) (tid : Nat),
        db.get_feature_locations f tid = .ok none
        ∨ ∃ e : PyErr, db.get_feature_locations f tid = .error e)
    ∧ dbC1.get_feature_locations 0 0 = .error .attributeError := by
  constructor
  · intro db f tid
    simp only [TracksDB.get_feature_locations]
    split
    · exact Or.inr ⟨.keyError, rfl⟩
    · split
      · split
        · exact Or.inr ⟨.keyError, rfl⟩
        · exact Or.inr ⟨.attributeError, rfl⟩
      · exact Or.inl rfl
  · rfl

/-- Second frame of the C2 scenario: the single correspondence
`(10,20) → (11,21)` survives into frame 1, so the existing track 0 absorbs
it. -/
def dbC2 : TracksDB :=
  (TracksDB.init.extend_tracks 0 ⟨[], []⟩ ⟨[10], [20]⟩).extend_tracks 1 ⟨[10], [20]⟩ ⟨[11], [21]⟩

/-- C2: the claim says only correspondences NOT absorbed by an existing track
become new single-frame tracks. In the code, `new_matches` is the whole
`next_frame_supporters_kp` (the `relevant_kp` dict computed for filtering is
never used), so absorbed correspondences are duplicated into the new track.
Here track 0 absorbs the only correspondence — it is extended to frame 1 with
keypoints `([11],[21])` — and the freshly created track 1 nevertheless also
holds that entire inlier pair. -/
theorem extend_tracks_duplicates_absorbed_matches :
    (dbC2.getTrack 0).frame_ids = [0, 1]
    ∧ dictGet? (dbC2.getTrack 0).kp 1 = some ⟨[11], [21]⟩
    ∧ dbC2.getTrack 1 = ⟨1, [1], [(1, ⟨[11], [21]⟩)]⟩ := by
  refine ⟨by decide, by decide, by decide⟩

/-- C5: calling `extend_tracks` with frame id `f` leaves every already-stored
observation of every stored track at every frame id `g < f` unchanged, and
either leaves a track's frame list unchanged or appends exactly `[f]` to it
(append-only law). Stated for any store with well-formed ids (no duplicate
track ids, all ids below the counter) — both hold for every store this class
builds. -/
theorem extend_tracks_append_only (db : TracksDB) (f : Int) (curr next : KPPair)
    (hnd : db.track_ids.Nodup) (hlt : ∀ tid ∈ db.track_ids, tid < db.track_id) :
    ∀ tid ∈ db.track_ids,
      (∀ g : Int, g < f →
        dictGet? ((db.extend_tracks f curr next).getTrack tid).kp g
          = dictGet? (db.getTrack tid).kp g)
      ∧ (((db.extend_tracks f curr next).getTrack tid).frame_ids
            = (db.getTrack tid).frame_ids
         ∨ ((db.extend_tracks f curr next).getTrack tid).frame_ids
            = (db.getTrack tid).frame_ids ++ [f]) := by
  intro tid htid
  have hne : tid ≠ db.track_id := Nat.ne_of_lt (hlt tid htid)
  rw [extend_getTrack db f curr next hnd tid, if_neg hne]
  by_cases hrel : tid ∈ db.relevantTracks f curr
  · rw [if_pos hrel]
    constructor
    · intro g hg
      exact add_frame_kp_get_ne _ _ _ _ _ (ne_of_lt hg)
    · right
      exact add_frame_frame_ids _ _ _ _
  · rw [if_neg hrel]
    exact ⟨fun g _ => rfl, Or.inl rfl⟩

theorem extend_tracks_append_only_witness :
    dbC1.track_ids.Nodup
    ∧ dictGet? ((dbC1.extend_tracks 1 ⟨[1], [2]⟩ ⟨[3], [4]⟩).getTrack 0).kp 0
        = dictGet? (dbC1.getTrack 0).kp 0 :=
  ⟨by decide,
    (extend_tracks_append_only dbC1 1 ⟨[1], [2]⟩ ⟨[3], [4]⟩ (by decide) (by decide)
      0 (by decide)).1 0 (by decide)⟩

/-- Modelled from the spec: `serialize`/`deserialize` (`ex4.py` lines
194-211) delegate to Python's `pickle` (external persistence, spec §6): the
store's entire object graph is written as an opaque blob and read back into
an equivalent in-memory store. The byte format is implementation-defined and
out of scope, so the blob is modelled as the stored value itself. -/
structure SerializedDB where
  blob : TracksDB

/-- `TracksDB.serialize` (`ex4.py` lines 195-201): `pickle.dump(self, file)`. -/
def TracksDB.serialize (db : TracksDB) : SerializedDB := ⟨db⟩

/-- `TracksDB.deserialize` (`ex4.py` lines 203-211): `pickle.load(file)`. -/
def TracksDB.deserialize (s : SerializedDB) : TracksDB := s.blob

/-- C8: deserializing the result of serializing a store yields a store with
identical track ids, per-track frame-id lists, and stored observation
values. -/
theorem serialize_deserialize_roundtrip (db : TracksDB) :
    (TracksDB.deserialize db.serialize).track_ids = db.track_ids
    ∧ (∀ tid : Nat,
        ((TracksDB.deserialize db.serialize).getTrack tid).frame_ids
          = (db.getTrack tid).frame_ids)
    ∧ ∀ (tid : Nat) (g : Int),
        dictGet? ((TracksDB.deserialize db.serialize).getTrack tid).kp g
          = dictGet? (db.getTrack tid).kp g :=
  ⟨rfl, fun _ => rfl, fun _ _ => rfl⟩

/-- Well-formedness maintained by ingestion: unique track ids, all below the
id counter, and every stored track's frame list strictly increasing and
bounded above by `ub` (the last ingested frame id). -/
def DBInv (db : TracksDB) (ub : Int) : Prop :=
  db.track_ids.Nodup
  ∧ (∀ tid ∈ db.track_ids, tid < db.track_id)
  ∧ ∀ tid ∈ db.track_ids,
      List.Pairwise (· < ·) ((db.getTrack tid).frame_ids)
      ∧ ∀ x ∈ (db.getTrack tid).frame_ids, x ≤ ub

theorem DBInv_init (ub : Int) : DBInv TracksDB.init ub := by
  refine ⟨List.nodup_nil, ?_, ?_⟩ <;> intro tid h <;> exact absurd h (by simp [TracksDB.init])

theorem extend_inv (db : TracksDB) (ub f : Int) (c n : KPPair)
    (h : DBInv db ub) (hf : ub < f) : DBInv (db.extend_tracks f c n) f := by
  obtain ⟨hnd, hlt, htr⟩ := h
  refine ⟨?_, ?_, ?_⟩
  · rw [extend_track_ids]
    refine List.Nodup.append hnd (List.nodup_singleton _) ?_
    intro a ha hb
    rw [List.mem_singleton] at hb
    exact lt_irrefl _ (hb ▸ hlt a ha)
  · rw [extend_track_ids, extend_track_id]
    intro tid htid
    rcases List.mem_append.mp htid with hold | hnew
    · exact Nat.lt_succ_of_lt (hlt tid hold)
    · rw [List.mem_singleton] at hnew
      exact hnew ▸ Nat.lt_succ_self _
  · intro tid htid
    rw [extend_track_ids] at htid
    rcases List.mem_append.mp htid with hold | hnew
    · have hne : tid ≠ db.track_id := Nat.ne_of_lt (hlt tid hold)
      rw [extend_getTrack db f c n hnd tid, if_neg hne]
      obtain ⟨hpw, hub⟩ := htr tid hold
      by_cases hrel : tid ∈ db.relevantTracks f c
      · rw [if_pos hrel, add_frame_frame_ids]
        constructor
        · refine List.pairwise_append.mpr ⟨hpw, List.pairwise_singleton _ _, ?_⟩
          intro x hx y hy
          rw [List.mem_singleton] at hy
          exact hy ▸ lt_of_le_of_lt (hub x hx) hf
        · intro x hx
          rcases List.mem_append.mp hx with hx' | hx'
          · exact le_trans (hub x hx') hf.le
          · rw [List.mem_singleton] at hx'
            exact hx' ▸ le_refl f
      · rw [if_neg hrel]
        exact ⟨hpw, fun x hx => le_trans (hub x hx) hf.le⟩
    · rw [List.mem_singleton] at hnew
      subst hnew
      rw [extend_getTrack_new]
      exact ⟨List.pairwise_singleton _ _, by intro x hx; rw [List.mem_singleton] at hx; exact hx ▸ le_refl f⟩

theorem ingest_inv (calls : List (Int × KPPair × KPPair)) :
    ∀ (db : TracksDB) (ub : Int), DBInv db ub →
      List.Chain (· < ·) ub (calls.map (·.1)) →
      ∃ ub', DBInv (db.ingest calls) ub' := by
  induction calls with
  | nil => intro db ub h _; exact ⟨ub, h⟩
  | cons cal rest ih =>
    intro db ub h hch
    rw [List.map_cons] at hch
    cases hch with
    | cons hub hrest =>
      rw [ingest_cons]
      exact ih _ cal.1 (extend_inv db ub cal.1 cal.2.1 cal.2.2 h hub) hrest

/-- C4: after ingesting any sequence of `extend_tracks` calls with strictly
increasing frame ids into the empty store, every stored track's `frame_ids`
list is strictly increasing (hence duplicate-free). Every intermediate state
of an ingestion is itself the ingestion of a prefix, whose frame ids are
again strictly increasing, so this covers every point during ingestion. -/
theorem ingest_frame_ids_strictly_increasing (calls : List (Int × KPPair × KPPair))
    (hmono : List.Chain' (· < ·) (calls.map (·.1))) :
    ∀ tid ∈ (TracksDB.init.ingest calls).track_ids,
      List.Pairwise (· < ·) ((TracksDB.init.ingest calls).getTrack tid).frame_ids := by
  cases calls with
  | nil =>
    intro tid h
    exact absurd h (by simp [ingest_nil, TracksDB.init])
  | cons cal rest =>
    have hmono' : List.Chain (· < ·) cal.1 (rest.map (·.1)) := by
      rw [List.map_cons] at hmono
      exact hmono
    have hch : List.Chain (· < ·) (cal.1 - 1) ((cal :: rest).map (·.1)) := by
      rw [List.map_cons]
      exact List.Chain.cons (by omega) hmono'
    obtain ⟨ub', hinv⟩ := ingest_inv (cal :: rest) TracksDB.init (cal.1 - 1) (DBInv_init _) hch
    intro tid htid
    exact (hinv.2.2 tid htid).1

def callsC4 : List (Int × KPPair × KPPair) :=
  [(0, ⟨[5], [6]⟩, ⟨[7], [8]⟩), (1, ⟨[7], [8]⟩, ⟨[9], [10]⟩)]

theorem callsC4_chain : List.Chain' (· < ·) (callsC4.map (·.1)) :=
  List.Chain.cons (by norm_num) List.Chain.nil

theorem ingest_frame_ids_strictly_increasing_witness :
    (0 : Nat) ∈ (TracksDB.init.ingest callsC4).track_ids
    ∧ List.Pairwise (· < ·) ((TracksDB.init.ingest callsC4).getTrack 0).frame_ids :=
  ⟨by decide,
    ingest_frame_ids_strictly_increasing callsC4 callsC4_chain 0 (by decide)⟩

/-- Python `zip` over three sequences: truncates to the shortest. -/
def zip3 {α β γ : Type} : List α → List β → List γ → List (α × β × γ)
  | a :: as, b :: bs, c :: cs => (a, b, c) :: zip3 as bs cs
  | _, _, _ => []

/-- The `for bundle_camera, bundle_points, bundle_init in zip(...)` loop of
`relative_to_absolute_poses` (`ex5.py` lines 455-471): running composition of
the bases with each bundle's relative camera and initial estimate, and each
bundle's points transformed by the newly composed absolute camera
(`abs_cameras[-1].transformFrom(point)`). `comp` is `gtsam.Pose3.compose` and
`tf` is `gtsam.Pose3.transformFrom`, external to this repository. -/
def r2aGo {α β : Type} (comp : α → α → α) (tf : α → β → β) :
    α → α → List (α × List β × α) → List α × List β × List α
  | _, _, [] => ([], [], [])
  | bc, bi, (cam, pts, ini) :: rest =>
    let bc' := comp bc cam
    let bi' := comp bi ini
    let r := r2aGo comp tf bc' bi' rest
    (bc' :: r.1, pts.map (tf bc') ++ r.2.1, bi' :: r.2.2)

/-- `relative_to_absolute_poses` (`ex5.py` lines 455-471): anchor at the
first camera (`cameras[0]`, `init_cams[0]` — an `IndexError` on empty input,
modelled as `none`), then fold composition left-to-right over the remaining
relative poses. -/
def relative_to_absolute_poses {α β : Type} (comp : α → α → α) (tf : α → β → β)
    (cameras : List α) (points : List (List β)) (init_cams : List α) :
    Option (List α × List β × List α) :=
  match cameras, init_cams with
  | base_camera :: cams, base_init :: inits =>
    let r := r2aGo comp tf base_camera base_init (zip3 cams points inits)
    some (base_camera :: r.1, r.2.1, base_init :: r.2.2)
  | _, _ => none

/-- The stream of composed absolute cameras: `absChain comp b l` is the list
of partial left-to-right compositions of `b` with the elements of `l`. -/
def absChain {α : Type} (comp : α → α → α) : α → List α → List α
  | _, [] => []
  | b, x :: xs => comp b x :: absChain comp (comp b x) xs

theorem r2aGo_fst {α β : Type} (comp : α → α → α) (tf : α → β → β) :
    ∀ (cams : List α) (pts : List (List β)) (inis : List α) (b bi : α),
      pts.length = cams.length → inis.length = cams.length →
      (r2aGo comp tf b bi (zip3 cams pts inis)).1 = absChain comp b cams := by
  intro cams
  induction cams with
  | nil =>
    intro pts inis b bi hp hi
    cases pts with
    | nil =>
      cases inis with
      | nil => rfl
      | cons i is => exact absurd hi (by simp)
    | cons p ps =>
      cases inis with
      | nil => rfl
      | cons i is => exact absurd hp (by simp)
  | cons x xs ih =>
    intro pts inis b bi hp hi
    cases pts with
    | nil => exact absurd hp (by simp)
    | cons p ps =>
      cases inis with
      | nil => exact absurd hi (by simp)
      | cons i is =>
        simp only [zip3, r2aGo, absChain]
        rw [ih ps is (comp b x) (comp bi i) (by simpa using hp) (by simpa using hi)]

theorem absChain_getD {α : Type} (comp : α → α → α) :
    ∀ (i : Nat) (l : List α) (b : α) (d : α), i < l.length →
      (b :: absChain comp b l).getD (i + 1) d
        = comp ((b :: absChain comp b l).getD i d) (l.getD i d) := by
  intro i
  induction i with
  | zero =>
    intro l b d hl
    cases l with
    | nil => exact absurd hl (by simp)
    | cons x xs => rfl
  | succ i ih =>
    intro l b d hl
    cases l with
    | nil => exact absurd hl (by simp)
    | cons x xs =>
      have hx : i < xs.length := by simpa using hl
      calc (b :: absChain comp b (x :: xs)).getD (i + 2) d
          = (comp b x :: absChain comp (comp b x) xs).getD (i + 1) d := rfl
        _ = comp ((comp b x :: absChain comp (comp b x) xs).getD i d) (xs.getD i d) :=
            ih xs (comp b x) d hx
        _ = comp ((b :: absChain comp b (x :: xs)).getD (i + 1) d) ((x :: xs).getD (i + 1) d) := rfl

/-- C7: `relative_to_absolute_poses` computes
`AbsolutePose(k_i) = AbsolutePose(k_im1) ∘ relativePose(window_i)` for every
`i`, anchored at the first camera: the absolute pose at index `i+1` of the
returned camera list equals the absolute pose at index `i` composed with the
`(i+1)`-st relative pose, and index 0 is the anchor. `comp` stands for
`gtsam.Pose3.compose`; the statement holds for any composition operation. -/
theorem relative_to_absolute_poses_composition {α β : Type} (comp : α → α → α)
    (tf : α → β → β) (cameras : List α) (points : List (List β)) (init_cams : List α)
    (hp : points.length + 1 = cameras.length) (hi : init_cams.length = cameras.length)
    (res : List α × List β × List α)
    (hres : relative_to_absolute_poses comp tf cameras points init_cams = some res)
    (i : Nat) (hlt : i + 1 < cameras.length) (d : α) :
    res.1.getD 0 d = cameras.getD 0 d
    ∧ res.1.getD (i + 1) d = comp (res.1.getD i d) (cameras.getD (i + 1) d) := by
  cases cameras with
  | nil => exact absurd hp (by simp)
  | cons c0 cams =>
    cases init_cams with
    | nil => exact absurd hi (by simp)
    | cons i0 inits =>
      simp only [relative_to_absolute_poses, Option.some_inj] at hres
      have hfst : res.1 = c0 :: absChain comp c0 cams := by
        rw [← hres]
        simp only []
        rw [r2aGo_fst comp tf cams points inits c0 i0 (by simpa using hp) (by simpa using hi)]
      rw [hfst]
      refine ⟨rfl, ?_⟩
      have hx : i < cams.length := by simpa using hlt
      calc (c0 :: absChain comp c0 cams).getD (i + 1) d
          = comp ((c0 :: absChain comp c0 cams).getD i d) (cams.getD i d) :=
            absChain_getD comp i cams c0 d hx
        _ = comp ((c0 :: absChain comp c0 cams).getD i d) ((c0 :: cams).getD (i + 1) d) := rfl

theorem relative_to_absolute_poses_composition_witness :
    ([[0], [0]] : List (List Nat)).length + 1 = ([1, 2, 3] : List Nat).length
    ∧ ([0, 0, 0] : List Nat).length = ([1, 2, 3] : List Nat).length
    ∧ relative_to_absolute_poses Nat.add (fun _ b => b) [1, 2, 3] [[0], [0]] [0, 0, 0]
        = some ([1, 3, 6], [0, 0], [0, 0, 0])
    ∧ ([1, 3, 6] : List Nat).getD 2 0
        = Nat.add (([1, 3, 6] : List Nat).getD 1 0) (([1, 2, 3] : List Nat).getD 2 0) :=
  ⟨rfl, rfl, rfl,
    (relative_to_absolute_poses_composition Nat.add (fun _ b => b) [1, 2, 3] [[0], [0]]
      [0, 0, 0] rfl rfl ([1, 3, 6], [0, 0], [0, 0, 0]) rfl 1 (by norm_num) 0).2⟩

/-- A 3×4 extrinsic camera matrix `[R|t]`. numpy's float arithmetic is
modelled as exact rational arithmetic. -/
abbrev ExtMat := Matrix (Fin 3) (Fin 4) ℚ

/-- A 3×3 rotation block. -/
abbrev RotMat := Matrix (Fin 3) (Fin 3) ℚ

/-- `ext_mat[:, :3]`: the rotation block of an extrinsic matrix. -/
def extR (M : ExtMat) : RotMat := fun i j => M i j.castSucc

/-- `ext_mat[:, 3]`: the translation column of an extrinsic matrix. -/
def extT (M : ExtMat) : Fin 3 → ℚ := fun i => M i 3

/-- `np.hstack((R, t.reshape(3, 1)))`: glue a 3×3 block and a column. -/
def hstack34 (R : RotMat) (t : Fin 3 → ℚ) : ExtMat := fun i j =>
  if h : (j : ℕ) < 3 then R i ⟨j, h⟩ else t i

/-- `fix_ext_mat` (`ex5.py` lines 332-339): split `[R|t]`, return
`[R^T | -R^T t]`. -/
def fix_ext_mat (M : ExtMat) : ExtMat :=
  hstack34 (Matrix.transpose (extR M))
    (fun i => -(Matrix.mulVec (Matrix.transpose (extR M)) (extT M) i))

theorem extR_hstack (R : RotMat) (t : Fin 3 → ℚ) : extR (hstack34 R t) = R := by
  funext i j
  have hj : ((j.castSucc : Fin 4) : ℕ) < 3 := by simp
  show (if h : ((j.castSucc : Fin 4) : ℕ) < 3 then R i ⟨(j.castSucc : Fin 4), h⟩ else t i) = R i j
  rw [dif_pos hj]
  exact rfl

theorem extT_hstack (R : RotMat) (t : Fin 3 → ℚ) : extT (hstack34 R t) = t := by
  funext i
  show (if h : ((3 : Fin 4) : ℕ) < 3 then R i ⟨(3 : Fin 4), h⟩ else t i) = t i
  rw [dif_neg (by decide)]

theorem hstack_extRT (M : ExtMat) : hstack34 (extR M) (extT M) = M := by
  funext i j
  by_cases h : (j : ℕ) < 3
  · show (if h' : (j : ℕ) < 3 then extR M i ⟨j, h'⟩ else extT M i) = M i j
    rw [dif_pos h]
    exact rfl
  · show (if h' : (j : ℕ) < 3 then extR M i ⟨j, h'⟩ else extT M i) = M i j
    rw [dif_neg h]
    have hj : j = (3 : Fin 4) := Fin.ext (by omega)
    rw [hj]
    rfl

/-- C10: `fix_ext_mat` is an involution on extrinsic matrices with an
orthogonal rotation block: if `R^T R = I`, then applying `fix_ext_mat` twice
returns the original `[R|t]` (it maps a world-to-camera transform to its
camera-to-world inverse and back). -/
theorem fix_ext_mat_involutive (M : ExtMat)
    (h : Matrix.transpose (extR M) * extR M = 1) :
    fix_ext_mat (fix_ext_mat M) = M := by
  have h' : extR M * Matrix.transpose (extR M) = 1 := Matrix.mul_eq_one_comm.mp h
  show fix_ext_mat (hstack34 (Matrix.transpose (extR M))
    (fun i => -(Matrix.mulVec (Matrix.transpose (extR M)) (extT M) i))) = M
  rw [fix_ext_mat, extR_hstack, extT_hstack, Matrix.transpose_transpose]
  have ht : (fun i => -(Matrix.mulVec (extR M)
        (fun i => -(Matrix.mulVec (Matrix.transpose (extR M)) (extT M) i)) i)) = extT M := by
    funext i
    have hneg : (fun i => -(Matrix.mulVec (Matrix.transpose (extR M)) (extT M) i))
        = -(Matrix.mulVec (Matrix.transpose (extR M)) (extT M)) := rfl
    rw [hneg, Matrix.mulVec_neg, Matrix.mulVec_mulVec, h', Matrix.one_mulVec]
    simp
  rw [ht, hstack_extRT]

def extMat0 : ExtMat := hstack34 1 (fun i => (i : ℚ) + 1)

theorem fix_ext_mat_involutive_witness :
    Matrix.transpose (extR extMat0) * extR extMat0 = 1
    ∧ fix_ext_mat (fix_ext_mat extMat0) = extMat0 := by
  have h : Matrix.transpose (extR extMat0) * extR extMat0 = 1 := by
    show Matrix.transpose (extR (hstack34 1 _)) * extR (hstack34 1 _) = 1
    rw [extR_hstack, Matrix.transpose_one, Matrix.one_mul]
  exact ⟨h, fix_ext_mat_involutive extMat0 h⟩

/-- A numpy matrix with explicit dimensions; entries are exact rationals. -/
structure NpMat where
  rows : Nat
  cols : Nat
  entry : Nat → Nat → ℚ

/-- The degrees of freedom of one `gtsam.Pose3` variable (3 rotation + 3
translation), per the spec's "6×6 covariance" per pose edge (§3, §4.2). -/
def POSE3_DOF : Nat := 6

/-- Modelled from the spec: the Optimizer capability (spec §6) — gtsam, not
part of this repository — supplies `jointMarginalCovariance`/
`jointMarginalInformation` "for any subset of solved variables"; its entries
come from the solver and are abstracted as a function. -/
structure Marginals where
  infoEntry : Nat → Nat → ℚ

/-- Modelled from the spec:
`marginals.jointMarginalInformation(keys).fullMatrix()` — the joint
information matrix over the requested pose variables, one `POSE3_DOF` block
per pose, hence a `(6k)×(6k)` matrix for `k` requested poses (glossary
"Marginal covariance": the inverse of the solver's information matrix over
the subset). -/
def jointMarginalInformationFull (m : Marginals) (keys : List Nat) : NpMat :=
  ⟨POSE3_DOF * keys.length, POSE3_DOF * keys.length, m.infoEntry⟩

/-- The covariance computation of `q6_1` (`ex6.py` lines 36-49): build
`keys = [symbol(c, c0), symbol(c, ck)]`, take the full joint marginal
information matrix of the PAIR, and return `np.linalg.inv` of it.
`np.linalg.inv` (numpy, external) is passed as a parameter `inv`; the claim
only depends on its shape behaviour (a square matrix maps to one of the same
shape). -/
def q6_1_rel_cov (inv : NpMat → NpMat) (m : Marginals) (c0 ck : Nat) : NpMat :=
  inv (jointMarginalInformationFull m [c0, ck])

/-- C3: the claim (and the docstring of `q6_1`) says the relative covariance
of `P(ck|c0)` is obtained by inverting the joint marginal information of the
pair `(c0, ck)` and that the result is a 6×6 matrix. The code does invert
the FULL joint information matrix of the pair — but that matrix is 12×12
(two 6-dof poses), so its inverse is the 12×12 joint covariance of both
poses, not a 6×6 relative covariance. Stated at the keyframes `c0 = 0`,
`ck = 7` used by `q6_1`, for any solver output `m` and any shape-preserving
inversion `inv`. -/
theorem q6_1_rel_cov_dim (inv : NpMat → NpMat) (m : Marginals)
    (hr : (inv (jointMarginalInformationFull m [0, 7])).rows
        = (jointMarginalInformationFull m [0, 7]).rows)
    (hc : (inv (jointMarginalInformationFull m [0, 7])).cols
        = (jointMarginalInformationFull m [0, 7]).cols) :
    (q6_1_rel_cov inv m 0 7).rows = 12
    ∧ (q6_1_rel_cov inv m 0 7).cols = 12
    ∧ (q6_1_rel_cov inv m 0 7).rows ≠ 6 := by
  refine ⟨?_, ?_, ?_⟩
  · rw [q6_1_rel_cov, hr]; rfl
  · rw [q6_1_rel_cov, hc]; rfl
  · rw [q6_1_rel_cov, hr]; exact (by decide : (12 : Nat) ≠ 6)

def marginals0 : Marginals := ⟨fun _ _ => 0⟩

theorem q6_1_rel_cov_dim_witness :
    ((fun A => A) (jointMarginalInformationFull marginals0 [0, 7])).rows
        = (jointMarginalInformationFull marginals0 [0, 7]).rows
    ∧ ((fun A => A) (jointMarginalInformationFull marginals0 [0, 7])).cols
        = (jointMarginalInformationFull marginals0 [0, 7]).cols
    ∧ (q6_1_rel_cov (fun A => A) marginals0 0 7).rows = 12 :=
  ⟨rfl, rfl, (q6_1_rel_cov_dim (fun A => A) marginals0 rfl rfl).1⟩
